import Mathlib

/-!
Verification of the LexicMap specification claims against a shallow Lean
embedding of the source: the k-mer codec (Go package util), the index-build
configuration checks (lexicmap/cmd/index.go), and the read-binning helpers
(lexicmap/cmd/bin.go).

Machine integers are modelled as Nat with explicit wrap-around where the Go
code can wrap: uint8 arithmetic on shift amounts is taken modulo 256 and
uint8 subtraction is `sub8`; uint64 values stay below 2 ^ 64 because every
64-bit operation used here (shift right, and, or, xor) is non-increasing on
that range, so only the one mask computation that can wrap (`1 << s - 1` in
KmerSuffix) carries an explicit modulus `w64`.
-/

/-! ## Machine-integer helpers -/

/-- Modulus of Go's uint64 type. -/
def w64 : Nat := 2 ^ 64

/-- Go uint8 subtraction a - b with wrap-around modulo 256 (for a, b < 256). -/
def sub8 (a b : Nat) : Nat := (a + 256 - b) % 256

/-- Go uint8 left shift by one bit (x << 1 on a uint8 operand). -/
def shl8 (a : Nat) : Nat := a * 2 % 256

/-! ## K-mer codec (Go package util, kmers.go) -/

/-- Embeds Go `KmerBaseAt`: the 2-bit base at 0-based position i, computed as
`code >> ((k-i-1)<<1) & 3` with uint8 arithmetic on the shift amount. -/
def KmerBaseAt (code k i : Nat) : Nat :=
  (code >>> shl8 (sub8 (sub8 k i) 1)) &&& 3

/-- Embeds Go `KmerPrefix` (renamed to avoid a reserved word): the first
n bases, `code >> ((k-n)<<1)`. -/
def KmerPrefixCode (code k n : Nat) : Nat :=
  code >>> shl8 (sub8 k n)

/-- Embeds Go `KmerSuffix`: `code & (1<<((k-i)<<1) - 1)`, the low k - i bases.
The mask is computed in uint64 arithmetic: `1 << s` overflows to 0 at s = 64
and the subsequent `- 1` wraps to all ones, which the explicit `% w64` terms
reproduce. -/
def KmerSuffix (code k i : Nat) : Nat :=
  code &&& ((2 ^ shl8 (sub8 k i) % w64 + (w64 - 1)) % w64)

/-- Fuel-bounded binary length; `bitLenAux 64 x` is Go's `bits.Len64 x` for
every x < 2 ^ 64. -/
def bitLenAux : Nat → Nat → Nat
  | 0, _ => 0
  | fuel + 1, x => if x = 0 then 0 else bitLenAux fuel (x / 2) + 1

/-- Embeds Go `bits.LeadingZeros64`: 64 - Len64 x, for x < 2 ^ 64. -/
def leadingZeros64 (x : Nat) : Nat := 64 - bitLenAux 64 x

/-- Embeds Go `KmerLongestPrefix` (renamed): the branchy longest-shared-prefix
computation. The shorter operand is left-aligned by shifting the longer one
right, the codes are XOR-ed, and half the leading zero count minus
d = 32 - min(k1,k2) (a uint8 subtraction) is returned. -/
def KmerLongestPrefixLen (code1 code2 k1 k2 : Nat) : Nat :=
  if k2 ≤ k1 then
    sub8 (leadingZeros64 ((code1 >>> shl8 (sub8 k1 k2)) ^^^ code2) / 2) (sub8 32 k2)
  else
    sub8 (leadingZeros64 (code1 ^^^ (code2 >>> shl8 (sub8 k2 k1))) / 2) (sub8 32 k1)

/-- Embeds Go `MustKmerLongestPrefix` (renamed), the fast path that assumes
k1 ≥ k2: `uint8(LeadingZeros64(code1'^code2)>>1) + k2 - 32` in uint8
arithmetic. -/
def MustKmerLongestPrefixLen (code1 code2 k1 k2 : Nat) : Nat :=
  sub8 ((leadingZeros64 ((code1 >>> shl8 (sub8 k1 k2)) ^^^ code2) / 2 + k2) % 256) 32

/-- The mismatch-counting loop body shared by `SharingPrefixKmersMismatch`:
t iterations, each comparing the low 2-bit base and shifting both codes. -/
def mismatchSteps : Nat → Nat → Nat → Nat
  | 0, _, _ => 0
  | t + 1, c1, c2 =>
    (if c1 &&& 3 ≠ c2 &&& 3 then 1 else 0) + mismatchSteps t (c1 >>> 2) (c2 >>> 2)

/-- The match-counting loop body shared by `SharingPrefixKmersSuffixMatches`. -/
def matchSteps : Nat → Nat → Nat → Nat
  | 0, _, _ => 0
  | t + 1, c1, c2 =>
    (if c1 &&& 3 = c2 &&& 3 then 1 else 0) + matchSteps t (c1 >>> 2) (c2 >>> 2)

/-- Embeds Go `SharingPrefixKmersMismatch`: 0 when p ≥ k, otherwise the number
of mismatching bases among the k - p suffix bases (uint8 loop bound). -/
def SharingPrefixKmersMismatch (code1 code2 k p : Nat) : Nat :=
  if p ≥ k then 0 else mismatchSteps (sub8 k p) code1 code2

/-- Embeds Go `MustSharingPrefixKmersMismatch`: identical loop without the
p ≥ k guard. -/
def MustSharingPrefixKmersMismatch (code1 code2 k p : Nat) : Nat :=
  mismatchSteps (sub8 k p) code1 code2

/-- Embeds Go `SharingPrefixKmersSuffixMatches`: 0 when p ≥ k, otherwise the
number of matching bases among the k - p suffix bases. -/
def SharingPrefixKmersSuffixMatches (code1 code2 k p : Nat) : Nat :=
  if p ≥ k then 0 else matchSteps (sub8 k p) code1 code2

/-- Embeds Go `MustSharingPrefixKmersSuffixMatches`; its body is identical to
`SharingPrefixKmersSuffixMatches`, including the p ≥ k guard. -/
def MustSharingPrefixKmersSuffixMatches (code1 code2 k p : Nat) : Nat :=
  if p ≥ k then 0 else matchSteps (sub8 k p) code1 code2

/-- Brute-force reference for the longest common prefix: compare the bases one
by one from the left, stopping at the first difference. -/
def refLCPAux (code1 k1 code2 k2 : Nat) : Nat → Nat → Nat
  | _, 0 => 0
  | i, fuel + 1 =>
    if KmerBaseAt code1 k1 i = KmerBaseAt code2 k2 i then
      refLCPAux code1 k1 code2 k2 (i + 1) fuel + 1
    else 0

/-- Brute-force longest common prefix of two k-mers, scanning the first
min k1 k2 base positions from the left. -/
def refLCP (code1 k1 code2 k2 : Nat) : Nat :=
  refLCPAux code1 k1 code2 k2 0 (min k1 k2)

/-! ## Index-build configuration checks (lexicmap/cmd/index.go) -/

/-- Outcome of the two seed-parameter checks run by the index command before
any build work starts. -/
inductive IndexConfigCheck where
  | ok
  | errSeedMinPrefixOutOfRange
  | errSeedInDesertDistTooLarge

/-- Embeds the seed-parameter validation in `indexCmd.Run`: seed-min-prefix
must lie in [5, 32] and seed-in-desert-dist must not exceed
seed-max-desert / 2 (Go integer division); each violation aborts with a
configuration error before `BuildIndex` is ever called. -/
def checkSeedOptions (minPrefixLen maxDesert seedInDesertDist : Nat) : IndexConfigCheck :=
  if 32 < minPrefixLen ∨ minPrefixLen < 5 then IndexConfigCheck.errSeedMinPrefixOutOfRange
  else if maxDesert / 2 < seedInDesertDist then IndexConfigCheck.errSeedInDesertDistTooLarge
  else IndexConfigCheck.ok

/-! ## Read-binning report schema and helpers (lexicmap/cmd/bin.go) -/

/-- Tab separator of the report columns. -/
def tabStr : String := "\t"

/-- Embeds the Go constant `ShortHeader` of bin.go. -/
def ShortHeader : String :=
  "query\tqlen\thits\tsgenome\tsseqid\tqcovGnm\thsp\tqcovHSP\talenHSP\tpident\tgaps\tqstart\tqend\tsstart\tsend\tsstr\tslen"

/-- Embeds the Go constant `LongHeader` of bin.go. -/
def LongHeader : String :=
  "query\tqlen\thits\tsgenome\tsseqid\tqcovGnm\thsp\tqcovHSP\talenHSP\tpident\tgaps\tqstart\tqend\tsstart\tsend\tsstr\tslen\tcigar\tqseq\tsseq\talign"

/-- The 17 column names of the short report schema, in order. -/
def shortColumns : List String :=
  [r"query", r"qlen", r"hits", r"sgenome", r"sseqid", r"qcovGnm", r"hsp",
   r"qcovHSP", r"alenHSP", r"pident", r"gaps", r"qstart", r"qend", r"sstart",
   r"send", r"sstr", r"slen"]

/-- The 4 extra column names of the long report schema, in order. -/
def longExtraColumns : List String := [r"cigar", r"qseq", r"sseq", r"align"]

/-- Model of a Go slice: the backing array from the slice's start (its length
is the capacity) together with the slice length. -/
structure GoSlice (α : Type) where
  arr : List α
  len : Nat

/-- The observable elements of a Go slice: the first `len` entries of the
backing array. -/
def GoSlice.elems {α : Type} (s : GoSlice α) : List α := s.arr.take s.len

/-- The reallocation step of bin.go's `Append`: when the slice is full
(`len(slice) == cap(slice)`), Go's `make([]T, total, total*2)` followed by
`copy(newSlice, slice)` yields a backing array holding the old elements
followed by zero values, with length `total`. -/
def growIfFull {α : Type} [Inhabited α] (slice : GoSlice α) (total : Nat) : GoSlice α :=
  if slice.len = slice.arr.length then
    ⟨slice.arr.take slice.len ++ List.replicate (total * 2 - slice.len) default, total⟩
  else slice

/-- Embeds bin.go's custom `Append` (renamed: `Append` is taken by Lean).
After the conditional reallocation, Go reslices with `slice[:total]` — which
panics (modelled as `none`) when `total` exceeds the capacity — and then
copies the new values into positions [len, total). -/
def GoAppend {α : Type} [Inhabited α] (slice : GoSlice α) (new_value : List α) :
    Option (GoSlice α) :=
  if slice.len + new_value.length ≤ (growIfFull slice (slice.len + new_value.length)).arr.length then
    some ⟨(growIfFull slice (slice.len + new_value.length)).arr.take slice.len ++ new_value
            ++ (growIfFull slice (slice.len + new_value.length)).arr.drop
                  (slice.len + new_value.length),
          slice.len + new_value.length⟩
  else none

/-- One parsed report line. bin.go's `IdentifyBestHit` reads only the
`sgenome` field of `SearchFields`; the remaining report fields (whose parser
lives outside the provided sources) are not modelled. -/
structure SearchFields where
  sgenome : String

/-- The empty string, Go's zero value for `string` and the initial value of
`previous` in `IdentifyBestHit`. -/
def emptyStr : String := ""

/-- Reference count of the iterations of `IdentifyBestHit`'s loop that
increment `sgenomes_out`: positions whose sgenome differs from the previous
one (seeded with `prev`). -/
def transCount : String → List SearchFields → Nat
  | _, [] => 0
  | prev, h :: t => (if h.sgenome ≠ prev then 1 else 0) + transCount h.sgenome t

/-- The value of `previous` after `IdentifyBestHit`'s loop: the last sgenome,
or the seed when the list is empty. -/
def lastSg : List SearchFields → String → String
  | [], prev => prev
  | h :: t, _ => lastSg t h.sgenome

/-- The loop of bin.go's `IdentifyBestHit`: walk the hits; whenever the
sgenome changes, increment `sgenomes_out` and append the read to that
genome's all-reads bin (via `GoAppend`, whose panic propagates as `none`). -/
def bestHitLoop {α : Type} [Inhabited α] (read : α) :
    List SearchFields → String → Nat → (String → GoSlice α) →
    Option (String × Nat × (String → GoSlice α))
  | [], prev, cnt, og => some (prev, cnt, og)
  | h :: t, prev, cnt, og =>
    if h.sgenome ≠ prev then
      match GoAppend (og h.sgenome) [read] with
      | some s2 => bestHitLoop read t h.sgenome (cnt + 1) (Function.update og h.sgenome s2)
      | none => none
    else bestHitLoop read t h.sgenome cnt og

/-- Embeds bin.go's `IdentifyBestHit`: run the loop starting from
`previous = ""` and `sgenomes_out = 0`; afterwards, when exactly one distinct
adjacent genome was seen and `id_best` is set, append the read to
`previous`'s unique bin. Returns the updated (all, unique) bin maps. -/
def IdentifyBestHit {α : Type} [Inhabited α] (search_output : List SearchFields)
    (output_genomes output_genomes_unq : String → GoSlice α) (read : α)
    (id_best : Bool) : Option ((String → GoSlice α) × (String → GoSlice α)) :=
  match bestHitLoop read search_output emptyStr 0 output_genomes with
  | none => none
  | some (prev, cnt, og2) =>
    if cnt = 1 ∧ id_best = true then
      match GoAppend (output_genomes_unq prev) [read] with
      | some u2 => some (og2, Function.update output_genomes_unq prev u2)
      | none => none
    else some (og2, output_genomes_unq)

/-- The all-empty bin map used as a concrete test fixture. -/
def emptyBins : String → GoSlice Nat := fun _ => ⟨[], 0⟩

/-- A concrete genome name used in test fixtures. -/
def gA : String := "g1"

/-! ## General lemmas -/

lemma and_three (x : Nat) : x &&& 3 = x % 4 := by
  have h := Nat.and_pow_two_sub_one_eq_mod x 2
  norm_num at h
  exact h

lemma steps_sum (t : Nat) : ∀ c1 c2, mismatchSteps t c1 c2 + matchSteps t c1 c2 = t := by
  induction t with
  | zero => intro c1 c2; rfl
  | succ t ih =>
    intro c1 c2
    simp only [mismatchSteps, matchSteps]
    have h := ih (c1 >>> 2) (c2 >>> 2)
    by_cases hb : c1 &&& 3 = c2 &&& 3
    · rw [if_neg (by simpa using hb), if_pos hb]
      omega
    · rw [if_pos hb, if_neg hb]
      omega

/-! ## Claims C2 and C9: mismatch/match complementarity and the Must variant -/

/-- Claim C2: for p < k ≤ 32, the mismatch count and the suffix match count of
two k-mers sharing a p-base prefix always sum to k - p. -/
theorem claim_C2 (code1 code2 k p : Nat) (hpk : p < k) (hk : k ≤ 32) :
    SharingPrefixKmersMismatch code1 code2 k p
      + SharingPrefixKmersSuffixMatches code1 code2 k p = k - p := by
  have hng : ¬ p ≥ k := by omega
  have hs : sub8 k p = k - p := by unfold sub8; omega
  unfold SharingPrefixKmersMismatch SharingPrefixKmersSuffixMatches
  rw [if_neg hng, if_neg hng, hs]
  exact steps_sum (k - p) code1 code2

/-- Witness for claim C2 at k = 3, p = 1, codes 9 and 6. -/
theorem claim_C2_witness :
    1 < 3 ∧ SharingPrefixKmersMismatch 9 6 3 1 + SharingPrefixKmersSuffixMatches 9 6 3 1 = 3 - 1 :=
  ⟨by decide, claim_C2 9 6 3 1 (by decide) (by decide)⟩

/-- Claim C9: `MustSharingPrefixKmersSuffixMatches` coincides with
`SharingPrefixKmersSuffixMatches` on all inputs — despite its name it keeps
the p ≥ k guard — and in particular both return 0 whenever p ≥ k. -/
theorem claim_C9 (code1 code2 k p : Nat) :
    MustSharingPrefixKmersSuffixMatches code1 code2 k p
        = SharingPrefixKmersSuffixMatches code1 code2 k p
      ∧ (p ≥ k → MustSharingPrefixKmersSuffixMatches code1 code2 k p = 0) := by
  constructor
  · rfl
  · intro h
    unfold MustSharingPrefixKmersSuffixMatches
    rw [if_pos h]

/-- Witness for claim C9 at k = 3, p = 3 (the guarded case). -/
theorem claim_C9_witness : MustSharingPrefixKmersSuffixMatches 9 6 3 3 = 0 :=
  (claim_C9 9 6 3 3).2 (by decide)

/-! ## Claim C3: prefix/suffix round trip -/

lemma shiftRight_shiftLeft_or_mod (a s : Nat) : (a >>> s) <<< s ||| a % 2 ^ s = a := by
  apply Nat.eq_of_testBit_eq
  intro i
  simp only [Nat.testBit_or, Nat.testBit_shiftLeft, Nat.testBit_shiftRight,
    Nat.testBit_mod_two_pow]
  by_cases h : s ≤ i
  · have h1 : i ≥ s := h
    have h2 : ¬ i < s := by omega
    simp [h1, h2, Nat.add_sub_cancel' h]
  · have h2 : i < s := by omega
    simp [h, h2]

/-- Claim C3: for 0 < n ≤ k ≤ 32 and an in-range code, shifting the n-base
head extracted by `KmerPrefixCode` left by 2*(k-n) bits and OR-ing in
`KmerSuffix code k n` reconstructs the code exactly. -/
theorem claim_C3 (code k n : Nat) (hk : k ≤ 32) (hn : 0 < n) (hnk : n ≤ k)
    (hcode : code < 2 ^ (2 * k)) :
    KmerPrefixCode code k n <<< (2 * (k - n)) ||| KmerSuffix code k n = code := by
  have hsub : sub8 k n = k - n := by unfold sub8; omega
  have hshl : shl8 (k - n) = 2 * (k - n) := by unfold shl8; omega
  have hm1 : 1 ≤ 2 ^ (2 * (k - n)) := Nat.one_le_two_pow
  have hm2 : 2 ^ (2 * (k - n)) ≤ 2 ^ 62 := Nat.pow_le_pow_right (by omega) (by omega)
  have hmask : (2 ^ (2 * (k - n)) % w64 + (w64 - 1)) % w64 = 2 ^ (2 * (k - n)) - 1 := by
    have hw : w64 = 18446744073709551616 := by norm_num [w64]
    have h62 : (2 : Nat) ^ 62 = 4611686018427387904 := by norm_num
    rw [hw]
    omega
  unfold KmerPrefixCode KmerSuffix
  rw [hsub, hshl, hmask, Nat.and_pow_two_sub_one_eq_mod]
  exact shiftRight_shiftLeft_or_mod code (2 * (k - n))

/-- Witness for claim C3 at k = 3, n = 2, code = 39. -/
theorem claim_C3_witness :
    (39 : Nat) < 2 ^ (2 * 3)
      ∧ KmerPrefixCode 39 3 2 <<< (2 * (3 - 2)) ||| KmerSuffix 39 3 2 = 39 :=
  ⟨by decide, claim_C3 39 3 2 (by decide) (by decide) (by decide) (by decide)⟩

/-! ## Claim C4: behaviour on out-of-domain codec arguments -/

/-- Counterexample record for claim C4: the codec operations do not fail on
out-of-domain arguments — they are total Go functions. `KmerBaseAt` at
i = k = 2 returns the 2-bit value selected by the wrapped uint8 shift amount,
`KmerPrefixCode` at n = 0 and `KmerSuffix` at k = 0 likewise return ordinary
values instead of signalling a domain error. -/
theorem claim_C4_counterexample :
    KmerBaseAt 14 2 2 = 0 ∧ KmerPrefixCode 14 2 0 = 0 ∧ KmerSuffix 14 0 0 = 0 :=
  ⟨by decide, by decide, by decide⟩

/-- Claim C4 (amended): the codec operations are total on out-of-domain
arguments rather than failing. `KmerBaseAt` always returns a 2-bit value even
when i ≥ k (the shift amount wraps in uint8 arithmetic), extraction with
n = 0 returns the whole-code shift `code >> 2k`, which is 0 for every
in-range code, and `KmerSuffix` with k = 0 masks with a wrapped all-ones
computation that yields 0 at k = i = 0. -/
theorem claim_C4_thm (code k i : Nat) (hk1 : 1 ≤ k) (hk : k ≤ 32)
    (hcode : code < 2 ^ (2 * k)) (hik : k ≤ i) :
    KmerBaseAt code k i < 4 ∧ KmerPrefixCode code k 0 = 0 ∧ KmerSuffix code 0 0 = 0 := by
  refine ⟨?_, ?_, ?_⟩
  · unfold KmerBaseAt
    have h := Nat.and_le_right (n := code >>> shl8 (sub8 (sub8 k i) 1)) (m := 3)
    omega
  · unfold KmerPrefixCode
    have hsub : sub8 k 0 = k := by unfold sub8; omega
    have hshl : shl8 k = 2 * k := by unfold shl8; omega
    rw [hsub, hshl, Nat.shiftRight_eq_div_pow]
    exact Nat.div_eq_of_lt hcode
  · unfold KmerSuffix
    have hsub : sub8 0 0 = 0 := by unfold sub8; omega
    have hshl : shl8 0 = 0 := by unfold shl8; omega
    rw [hsub, hshl]
    norm_num [w64]

/-- Witness for the amended claim C4 at code = 14, k = 2, i = 5. -/
theorem claim_C4_thm_witness :
    (14 : Nat) < 2 ^ (2 * 2)
      ∧ (KmerBaseAt 14 2 5 < 4 ∧ KmerPrefixCode 14 2 0 = 0 ∧ KmerSuffix 14 0 0 = 0) :=
  ⟨by decide, claim_C4_thm 14 2 5 (by decide) (by decide) (by decide) (by decide)⟩

/-! ## Claim C6: index-build seed-parameter validation -/

/-- Claim C6: the pre-build validation passes exactly when seed-min-prefix
lies in [5, 32] and seed-in-desert-dist is at most half of seed-max-desert;
otherwise it stops with a configuration error before any build work. -/
theorem claim_C6 (minPrefixLen maxDesert seedInDesertDist : Nat) :
    checkSeedOptions minPrefixLen maxDesert seedInDesertDist = IndexConfigCheck.ok
      ↔ (5 ≤ minPrefixLen ∧ minPrefixLen ≤ 32 ∧ seedInDesertDist ≤ maxDesert / 2) := by
  unfold checkSeedOptions
  by_cases h1 : 32 < minPrefixLen ∨ minPrefixLen < 5
  · rw [if_pos h1]
    constructor
    · intro h; cases h
    · intro h; omega
  · rw [if_neg h1]
    by_cases h2 : maxDesert / 2 < seedInDesertDist
    · rw [if_pos h2]
      constructor
      · intro h; cases h
      · intro h; omega
    · rw [if_neg h2]
      constructor
      · intro _; omega
      · intro _; rfl

/-- Witness for claim C6 at the default parameters 15, 900, 200. -/
theorem claim_C6_witness :
    checkSeedOptions 15 900 200 = IndexConfigCheck.ok :=
  (claim_C6 15 900 200).mpr (by decide)

/-! ## Claim C7: report schema headers -/

/-- Claim C7: the short report header is exactly the 17 tab-separated column
names in the specified order, and the long header is the short header
followed by the tab-separated columns cigar, qseq, sseq, align. -/
theorem claim_C7 :
    shortColumns.length = 17
      ∧ longExtraColumns.length = 4
      ∧ ShortHeader = String.intercalate tabStr shortColumns
      ∧ LongHeader = String.intercalate tabStr (shortColumns ++ longExtraColumns)
      ∧ LongHeader = ShortHeader ++ (tabStr ++ String.intercalate tabStr longExtraColumns) :=
  ⟨rfl, rfl, rfl, rfl, rfl⟩

/-! ## Bit-length and leading-zero lemmas for the longest-prefix computation -/

lemma size_succ_div_two (x : Nat) (hx : x ≠ 0) : Nat.size x = Nat.size (x / 2) + 1 := by
  apply le_antisymm
  · rw [Nat.size_le]
    have h1 : x / 2 < 2 ^ Nat.size (x / 2) := Nat.lt_size_self (x / 2)
    have h2 : 2 ^ (Nat.size (x / 2) + 1) = 2 * 2 ^ Nat.size (x / 2) := by
      rw [pow_succ]; ring
    omega
  · rw [Nat.add_one_le_iff, Nat.lt_size]
    by_cases h0 : x / 2 = 0
    · rw [h0, Nat.size_zero, pow_zero]
      omega
    · have h1 : 0 < Nat.size (x / 2) := Nat.size_pos.mpr (Nat.pos_of_ne_zero h0)
      have h2 : 2 ^ (Nat.size (x / 2) - 1) ≤ x / 2 := Nat.lt_size.mp (by omega)
      have h3 : 2 ^ Nat.size (x / 2) = 2 * 2 ^ (Nat.size (x / 2) - 1) := by
        rw [← pow_succ']
        congr 1
        omega
      omega

lemma bitLenAux_eq_size : ∀ (fuel x : Nat), x < 2 ^ fuel → bitLenAux fuel x = Nat.size x := by
  intro fuel
  induction fuel with
  | zero =>
    intro x hx
    rw [pow_zero] at hx
    have h0 : x = 0 := by omega
    subst h0
    simp [bitLenAux]
  | succ fuel ih =>
    intro x hx
    by_cases h0 : x = 0
    · subst h0
      simp [bitLenAux]
    · have h2 : 2 ^ (fuel + 1) = 2 * 2 ^ fuel := by rw [pow_succ]; ring
      have hdiv : x / 2 < 2 ^ fuel := by omega
      have heq : bitLenAux (fuel + 1) x = bitLenAux fuel (x / 2) + 1 := by
        simp [bitLenAux, h0]
      rw [heq, ih (x / 2) hdiv, ← size_succ_div_two x h0]

lemma lz_half (x m : Nat) (hm : m ≤ 32) (hx : x < 2 ^ (2 * m)) :
    leadingZeros64 x / 2 = 32 - (Nat.size x + 1) / 2 ∧ (Nat.size x + 1) / 2 ≤ m := by
  have hx64 : x < 2 ^ 64 := lt_of_lt_of_le hx (Nat.pow_le_pow_right (by omega) (by omega))
  have hb : bitLenAux 64 x = Nat.size x := bitLenAux_eq_size 64 x hx64
  have hs : Nat.size x ≤ 2 * m := Nat.size_le.mpr hx
  unfold leadingZeros64
  rw [hb]
  omega

lemma xor_shiftRight_distrib (a b s : Nat) : (a ^^^ b) >>> s = a >>> s ^^^ b >>> s := by
  apply Nat.eq_of_testBit_eq
  intro i
  simp [Nat.testBit_shiftRight, Nat.testBit_xor]

lemma xor_mod_four (a b : Nat) : (a ^^^ b) % 4 = a % 4 ^^^ b % 4 := by
  have h4 : (4 : Nat) = 2 ^ 2 := by norm_num
  rw [h4]
  apply Nat.eq_of_testBit_eq
  intro i
  simp only [Nat.testBit_mod_two_pow, Nat.testBit_xor]
  by_cases h : i < 2 <;> simp [h]

lemma shiftRight_align_lt (code k m : Nat) (hmk : m ≤ k) (hc : code < 2 ^ (2 * k)) :
    code >>> (2 * (k - m)) < 2 ^ (2 * m) := by
  rw [Nat.shiftRight_eq_div_pow]
  apply Nat.div_lt_of_lt_mul
  calc code < 2 ^ (2 * k) := hc
    _ = 2 ^ (2 * (k - m)) * 2 ^ (2 * m) := by
        rw [← pow_add]
        congr 1
        omega

/-- Group-level characterization of the XOR-and-count-leading-zeros trick: for
left-aligned codes a, b < 4 ^ m, the value m - ceil(size (a xor b) / 2) is at
most m, every base strictly before it matches, and (when it is below m) the
base right at it differs. -/
lemma lcp_groups (a b m : Nat) (hm : m ≤ 32) (ha : a < 2 ^ (2 * m)) (hb : b < 2 ^ (2 * m)) :
    (m - (Nat.size (a ^^^ b) + 1) / 2 ≤ m)
    ∧ (∀ j, j < m - (Nat.size (a ^^^ b) + 1) / 2 →
        (a >>> (2 * (m - 1 - j))) % 4 = (b >>> (2 * (m - 1 - j))) % 4)
    ∧ (m - (Nat.size (a ^^^ b) + 1) / 2 < m →
        ¬ (a >>> (2 * (m - 1 - (m - (Nat.size (a ^^^ b) + 1) / 2)))) % 4
            = (b >>> (2 * (m - 1 - (m - (Nat.size (a ^^^ b) + 1) / 2)))) % 4) := by
  have hx : a ^^^ b < 2 ^ (2 * m) := Nat.xor_lt_two_pow ha hb
  have hs : Nat.size (a ^^^ b) ≤ 2 * m := Nat.size_le.mpr hx
  refine ⟨by omega, ?_, ?_⟩
  · intro j hj
    have h1 : Nat.size (a ^^^ b) ≤ 2 * (m - 1 - j) := by omega
    have h2 : a ^^^ b < 2 ^ (2 * (m - 1 - j)) :=
      lt_of_lt_of_le (Nat.lt_size_self (a ^^^ b)) (Nat.pow_le_pow_right (by omega) h1)
    have h3 : (a ^^^ b) >>> (2 * (m - 1 - j)) = 0 := by
      rw [Nat.shiftRight_eq_div_pow]
      exact Nat.div_eq_of_lt h2
    have h4 : a >>> (2 * (m - 1 - j)) ^^^ b >>> (2 * (m - 1 - j)) = 0 := by
      rw [← xor_shiftRight_distrib]
      exact h3
    rw [Nat.xor_eq_zero.mp h4]
  · intro hlt heq
    have hc1 : 1 ≤ (Nat.size (a ^^^ b) + 1) / 2 := by omega
    have hs1 : 1 ≤ Nat.size (a ^^^ b) := by omega
    have ht : m - 1 - (m - (Nat.size (a ^^^ b) + 1) / 2) = (Nat.size (a ^^^ b) + 1) / 2 - 1 := by
      omega
    rw [ht] at heq
    set c := (Nat.size (a ^^^ b) + 1) / 2 with hcdef
    have hlow : 2 ^ (Nat.size (a ^^^ b) - 1) ≤ a ^^^ b := Nat.lt_size.mp (by omega)
    have hup : a ^^^ b < 2 ^ Nat.size (a ^^^ b) := Nat.lt_size_self (a ^^^ b)
    have hge : 1 ≤ (a ^^^ b) >>> (2 * (c - 1)) := by
      rw [Nat.shiftRight_eq_div_pow]
      have hle : 2 ^ (2 * (c - 1)) ≤ a ^^^ b :=
        le_trans (Nat.pow_le_pow_right (by omega) (by omega)) hlow
      exact (Nat.one_le_div_iff (Nat.pow_pos (by omega))).mpr hle
    have hltu : (a ^^^ b) >>> (2 * (c - 1)) < 4 := by
      rw [Nat.shiftRight_eq_div_pow]
      apply Nat.div_lt_of_lt_mul
      calc a ^^^ b < 2 ^ Nat.size (a ^^^ b) := hup
        _ ≤ 2 ^ (2 * (c - 1) + 2) := Nat.pow_le_pow_right (by omega) (by omega)
        _ = 2 ^ (2 * (c - 1)) * 4 := by rw [pow_add]; norm_num
    have hzero : ((a ^^^ b) >>> (2 * (c - 1))) % 4 = 0 := by
      rw [xor_shiftRight_distrib, xor_mod_four, heq, Nat.xor_self]
    omega

lemma refLCPAux_le (code1 k1 code2 k2 : Nat) :
    ∀ (fuel i : Nat), refLCPAux code1 k1 code2 k2 i fuel ≤ fuel := by
  intro fuel
  induction fuel with
  | zero => intro i; simp [refLCPAux]
  | succ fuel ih =>
    intro i
    simp only [refLCPAux]
    by_cases h : KmerBaseAt code1 k1 i = KmerBaseAt code2 k2 i
    · rw [if_pos h]
      have := ih (i + 1)
      omega
    · rw [if_neg h]
      omega

lemma refLCPAux_matches (code1 k1 code2 k2 : Nat) :
    ∀ (fuel i j : Nat), j < refLCPAux code1 k1 code2 k2 i fuel →
      KmerBaseAt code1 k1 (i + j) = KmerBaseAt code2 k2 (i + j) := by
  intro fuel
  induction fuel with
  | zero => intro i j h; simp [refLCPAux] at h
  | succ fuel ih =>
    intro i j h
    simp only [refLCPAux] at h
    by_cases hb : KmerBaseAt code1 k1 i = KmerBaseAt code2 k2 i
    · rw [if_pos hb] at h
      cases j with
      | zero => simpa using hb
      | succ j =>
        have h2 : j < refLCPAux code1 k1 code2 k2 (i + 1) fuel := by omega
        have h3 := ih (i + 1) j h2
        rw [show i + (j + 1) = i + 1 + j by omega]
        exact h3
    · rw [if_neg hb] at h
      omega

lemma refLCPAux_stop (code1 k1 code2 k2 : Nat) :
    ∀ (fuel i : Nat), refLCPAux code1 k1 code2 k2 i fuel < fuel →
      ¬ KmerBaseAt code1 k1 (i + refLCPAux code1 k1 code2 k2 i fuel)
          = KmerBaseAt code2 k2 (i + refLCPAux code1 k1 code2 k2 i fuel) := by
  intro fuel
  induction fuel with
  | zero => intro i h; omega
  | succ fuel ih =>
    intro i h
    by_cases hb : KmerBaseAt code1 k1 i = KmerBaseAt code2 k2 i
    · simp only [refLCPAux, if_pos hb] at h ⊢
      have h2 : refLCPAux code1 k1 code2 k2 (i + 1) fuel < fuel := by omega
      have h3 := ih (i + 1) h2
      rw [show i + (refLCPAux code1 k1 code2 k2 (i + 1) fuel + 1)
            = i + 1 + refLCPAux code1 k1 code2 k2 (i + 1) fuel by omega]
      exact h3
    · simp only [refLCPAux, if_neg hb] at h ⊢
      simpa using hb

lemma lcp_unique (P : Nat → Prop) (m n1 n2 : Nat)
    (h1m : n1 ≤ m) (h1a : ∀ j, j < n1 → P j) (h1s : n1 < m → ¬ P n1)
    (h2m : n2 ≤ m) (h2a : ∀ j, j < n2 → P j) (h2s : n2 < m → ¬ P n2) : n1 = n2 := by
  by_contra hne
  rcases Nat.lt_or_ge n1 n2 with h | h
  · exact (h1s (by omega)) (h2a n1 h)
  · have h2 : n2 < n1 := by omega
    exact (h2s (by omega)) (h1a n2 h2)

lemma baseAt_shift (code k m i : Nat) (him : i < m) (hmk : m ≤ k) (hk : k ≤ 32) :
    KmerBaseAt code k i = ((code >>> (2 * (k - m))) >>> (2 * (m - 1 - i))) % 4 := by
  unfold KmerBaseAt
  have e1 : sub8 k i = k - i := by unfold sub8; omega
  have e2 : sub8 (k - i) 1 = k - i - 1 := by unfold sub8; omega
  have e3 : shl8 (k - i - 1) = 2 * (k - i - 1) := by unfold shl8; omega
  rw [e1, e2, e3, ← Nat.shiftRight_add]
  rw [show 2 * (k - m) + 2 * (m - 1 - i) = 2 * (k - i - 1) by omega]
  exact and_three _

/-- Value of `KmerLongestPrefixLen` in its k1 ≥ k2 branch, for in-range
inputs: min(k1,k2) minus ceil(size (aligned xor) / 2). -/
lemma klp_left_val (code1 code2 k1 k2 : Nat) (hk : k2 ≤ k1) (h21 : 1 ≤ k2) (h12 : k1 ≤ 32)
    (hc1 : code1 < 2 ^ (2 * k1)) (hc2 : code2 < 2 ^ (2 * k2)) :
    KmerLongestPrefixLen code1 code2 k1 k2
      = k2 - (Nat.size ((code1 >>> (2 * (k1 - k2))) ^^^ code2) + 1) / 2 := by
  have ha : code1 >>> (2 * (k1 - k2)) < 2 ^ (2 * k2) :=
    shiftRight_align_lt code1 k1 k2 hk hc1
  have hx : (code1 >>> (2 * (k1 - k2))) ^^^ code2 < 2 ^ (2 * k2) :=
    Nat.xor_lt_two_pow ha hc2
  obtain ⟨h1, h2⟩ := lz_half _ k2 (by omega) hx
  unfold KmerLongestPrefixLen
  rw [if_pos hk]
  have e1 : sub8 k1 k2 = k1 - k2 := by unfold sub8; omega
  have e2 : shl8 (k1 - k2) = 2 * (k1 - k2) := by unfold shl8; omega
  have e3 : sub8 32 k2 = 32 - k2 := by unfold sub8; omega
  rw [e1, e2, e3, h1]
  unfold sub8
  omega

/-- Value of `KmerLongestPrefixLen` in its k1 < k2 branch. -/
lemma klp_right_val (code1 code2 k1 k2 : Nat) (hk : k1 < k2) (h11 : 1 ≤ k1) (h22 : k2 ≤ 32)
    (hc1 : code1 < 2 ^ (2 * k1)) (hc2 : code2 < 2 ^ (2 * k2)) :
    KmerLongestPrefixLen code1 code2 k1 k2
      = k1 - (Nat.size (code1 ^^^ (code2 >>> (2 * (k2 - k1)))) + 1) / 2 := by
  have hb : code2 >>> (2 * (k2 - k1)) < 2 ^ (2 * k1) :=
    shiftRight_align_lt code2 k2 k1 (by omega) hc2
  have hx : code1 ^^^ (code2 >>> (2 * (k2 - k1))) < 2 ^ (2 * k1) :=
    Nat.xor_lt_two_pow hc1 hb
  obtain ⟨h1, h2⟩ := lz_half _ k1 (by omega) hx
  unfold KmerLongestPrefixLen
  rw [if_neg (by omega)]
  have e1 : sub8 k2 k1 = k2 - k1 := by unfold sub8; omega
  have e2 : shl8 (k2 - k1) = 2 * (k2 - k1) := by unfold shl8; omega
  have e3 : sub8 32 k1 = 32 - k1 := by unfold sub8; omega
  rw [e1, e2, e3, h1]
  unfold sub8
  omega

/-- Value of `MustKmerLongestPrefixLen` for in-range inputs with k1 ≥ k2: the
same expression as the general branchy version. -/
lemma must_klp_val (code1 code2 k1 k2 : Nat) (hk : k2 ≤ k1) (h21 : 1 ≤ k2) (h12 : k1 ≤ 32)
    (hc1 : code1 < 2 ^ (2 * k1)) (hc2 : code2 < 2 ^ (2 * k2)) :
    MustKmerLongestPrefixLen code1 code2 k1 k2
      = k2 - (Nat.size ((code1 >>> (2 * (k1 - k2))) ^^^ code2) + 1) / 2 := by
  have ha : code1 >>> (2 * (k1 - k2)) < 2 ^ (2 * k2) :=
    shiftRight_align_lt code1 k1 k2 hk hc1
  have hx : (code1 >>> (2 * (k1 - k2))) ^^^ code2 < 2 ^ (2 * k2) :=
    Nat.xor_lt_two_pow ha hc2
  obtain ⟨h1, h2⟩ := lz_half _ k2 (by omega) hx
  unfold MustKmerLongestPrefixLen
  have e1 : sub8 k1 k2 = k1 - k2 := by unfold sub8; omega
  have e2 : shl8 (k1 - k2) = 2 * (k1 - k2) := by unfold shl8; omega
  rw [e1, e2, h1]
  unfold sub8
  omega

/-- Core equality for claim C1: after aligning both codes to the common width
m = min k1 k2, the closed-form count agrees with the brute-force scan. -/
lemma lcp_main (code1 code2 k1 k2 m : Nat) (hm1 : 1 ≤ m) (hmk1 : m ≤ k1) (hmk2 : m ≤ k2)
    (h12 : k1 ≤ 32) (h22 : k2 ≤ 32)
    (hc1 : code1 < 2 ^ (2 * k1)) (hc2 : code2 < 2 ^ (2 * k2)) (hmin : m = min k1 k2) :
    m - (Nat.size ((code1 >>> (2 * (k1 - m))) ^^^ (code2 >>> (2 * (k2 - m)))) + 1) / 2
      = refLCP code1 k1 code2 k2 := by
  have ha : code1 >>> (2 * (k1 - m)) < 2 ^ (2 * m) :=
    shiftRight_align_lt code1 k1 m hmk1 hc1
  have hb : code2 >>> (2 * (k2 - m)) < 2 ^ (2 * m) :=
    shiftRight_align_lt code2 k2 m hmk2 hc2
  obtain ⟨hN, hMatch, hStop⟩ :=
    lcp_groups (code1 >>> (2 * (k1 - m))) (code2 >>> (2 * (k2 - m))) m (by omega) ha hb
  have hrm : refLCP code1 k1 code2 k2 = refLCPAux code1 k1 code2 k2 0 m := by
    unfold refLCP
    rw [← hmin]
  rw [hrm]
  apply lcp_unique (fun j => KmerBaseAt code1 k1 j = KmerBaseAt code2 k2 j) m
  · exact hN
  · intro j hj
    have hjm : j < m := by omega
    rw [baseAt_shift code1 k1 m j hjm hmk1 h12, baseAt_shift code2 k2 m j hjm hmk2 h22]
    exact hMatch j hj
  · intro hNm
    rw [baseAt_shift code1 k1 m _ (by omega) hmk1 h12,
      baseAt_shift code2 k2 m _ (by omega) hmk2 h22]
    exact hStop hNm
  · exact refLCPAux_le code1 k1 code2 k2 m 0
  · intro j hj
    have h := refLCPAux_matches code1 k1 code2 k2 m 0 j hj
    simpa using h
  · intro hlt
    have h := refLCPAux_stop code1 k1 code2 k2 m 0 hlt
    simpa using h

/-! ## Claims C1 and C5: longest common prefix -/

/-- Claim C1: for 1 ≤ k1, k2 ≤ 32 and codes with only the low 2k bits set,
`KmerLongestPrefixLen` equals the number of matching leading bases computed by
the brute-force base-by-base reference comparison, for equal and unequal
k1, k2 alike. -/
theorem claim_C1 (code1 code2 k1 k2 : Nat)
    (h11 : 1 ≤ k1) (h12 : k1 ≤ 32) (h21 : 1 ≤ k2) (h22 : k2 ≤ 32)
    (hc1 : code1 < 2 ^ (2 * k1)) (hc2 : code2 < 2 ^ (2 * k2)) :
    KmerLongestPrefixLen code1 code2 k1 k2 = refLCP code1 k1 code2 k2 := by
  rcases le_or_lt k2 k1 with hk | hk
  · rw [klp_left_val code1 code2 k1 k2 hk h21 h12 hc1 hc2]
    have h0 : code2 >>> (2 * (k2 - k2)) = code2 := by simp
    have h := lcp_main code1 code2 k1 k2 k2 h21 hk le_rfl h12 h22 hc1 hc2 (by omega)
    rw [h0] at h
    exact h
  · rw [klp_right_val code1 code2 k1 k2 hk h11 h22 hc1 hc2]
    have h0 : code1 >>> (2 * (k1 - k1)) = code1 := by simp
    have h := lcp_main code1 code2 k1 k2 k1 h11 le_rfl (by omega) h12 h22 hc1 hc2 (by omega)
    rw [h0] at h
    exact h

/-- Witness for claim C1 at code1 = 14 (k1 = 2), code2 = 57 (k2 = 3). -/
theorem claim_C1_witness :
    (14 : Nat) < 2 ^ (2 * 2) ∧ (57 : Nat) < 2 ^ (2 * 3)
      ∧ KmerLongestPrefixLen 14 57 2 3 = refLCP 14 2 57 3 :=
  ⟨by decide, by decide,
    claim_C1 14 57 2 3 (by decide) (by decide) (by decide) (by decide) (by decide) (by decide)⟩

/-- Claim C5: for k1 ≥ k2 (both in [1, 32]) and in-range codes, the
precondition-checked fast path `MustKmerLongestPrefixLen` returns the same
value as the general `KmerLongestPrefixLen`. -/
theorem claim_C5 (code1 code2 k1 k2 : Nat) (hk : k2 ≤ k1) (h21 : 1 ≤ k2) (h12 : k1 ≤ 32)
    (hc1 : code1 < 2 ^ (2 * k1)) (hc2 : code2 < 2 ^ (2 * k2)) :
    MustKmerLongestPrefixLen code1 code2 k1 k2 = KmerLongestPrefixLen code1 code2 k1 k2 := by
  rw [must_klp_val code1 code2 k1 k2 hk h21 h12 hc1 hc2,
    klp_left_val code1 code2 k1 k2 hk h21 h12 hc1 hc2]

/-- Witness for claim C5 at code1 = 57 (k1 = 3), code2 = 14 (k2 = 2). -/
theorem claim_C5_witness :
    (57 : Nat) < 2 ^ (2 * 3) ∧ (14 : Nat) < 2 ^ (2 * 2)
      ∧ MustKmerLongestPrefixLen 57 14 3 2 = KmerLongestPrefixLen 57 14 3 2 :=
  ⟨by decide, by decide,
    claim_C5 57 14 3 2 (by decide) (by decide) (by decide) (by decide) (by decide)⟩

/-! ## Claim C8: the custom Append helper -/

/-- Soundness of `GoAppend` away from the panic case: when the slice is full
(the reallocating branch) or the new values fit under the capacity, the call
succeeds and the resulting elements are the old elements followed by the new
values. -/
lemma goAppend_sound {α : Type} [Inhabited α] (s : GoSlice α) (vs : List α)
    (h : s.len = s.arr.length ∨ s.len + vs.length ≤ s.arr.length) :
    ∃ t, GoAppend s vs = some t ∧ t.elems = s.elems ++ vs ∧ t.len ≤ t.arr.length := by
  by_cases hfull : s.len = s.arr.length
  · set T := s.len + vs.length with hT
    set A := s.arr.take s.len ++ List.replicate (T * 2 - s.len) (default : α) with hA
    have hg : growIfFull s T = ⟨A, T⟩ := by
      unfold growIfFull
      rw [if_pos hfull]
    have htake : (s.arr.take s.len).length = s.len := by
      rw [List.length_take]
      omega
    have hlenA : A.length = T * 2 := by
      rw [hA, List.length_append, htake, List.length_replicate]
      omega
    have hXA : A.take s.len = s.arr.take s.len := by
      rw [hA]
      exact List.take_left' htake
    have hXlen : (A.take s.len).length = s.len := by
      rw [List.length_take, hlenA]
      omega
    refine ⟨⟨A.take s.len ++ vs ++ A.drop T, T⟩, ?_, ?_, ?_⟩
    · unfold GoAppend
      rw [← hT, hg]
      dsimp only
      rw [if_pos (by rw [hlenA]; omega)]
    · unfold GoSlice.elems
      dsimp only
      rw [List.append_assoc, List.take_append_eq_append_take,
        List.take_of_length_le (by rw [hXlen]; omega),
        show T - (A.take s.len).length = vs.length by rw [hXlen]; omega,
        List.take_left, hXA]
    · dsimp only
      simp only [List.length_append, List.length_drop, hXlen, hlenA]
      omega
  · have hroom : s.len + vs.length ≤ s.arr.length := by
      rcases h with h | h
      · exact absurd h hfull
      · exact h
    have hg : growIfFull s (s.len + vs.length) = s := by
      unfold growIfFull
      rw [if_neg hfull]
    have htake : (s.arr.take s.len).length = s.len := by
      rw [List.length_take]
      omega
    refine ⟨⟨s.arr.take s.len ++ vs ++ s.arr.drop (s.len + vs.length),
        s.len + vs.length⟩, ?_, ?_, ?_⟩
    · unfold GoAppend
      rw [hg, if_pos hroom]
    · unfold GoSlice.elems
      dsimp only
      rw [List.append_assoc, List.take_append_eq_append_take,
        List.take_of_length_le (by rw [htake]; omega),
        show s.len + vs.length - (s.arr.take s.len).length = vs.length by rw [htake]; omega,
        List.take_left]
    · dsimp only
      simp only [List.length_append, List.length_drop, htake]
      omega

/-- Counterexample for claim C8: on a slice with len 1 and cap 2, appending
two values makes Go's `slice[:total]` step index past the capacity — the
call panics (modelled as `none`) instead of returning the concatenation, so
`GoAppend` does not agree with the standard growable-sequence append on every
input. -/
theorem claim_C8_counterexample :
    GoAppend (⟨[5, 6], 1⟩ : GoSlice Nat) [7, 8] = none
      ∧ ¬ (GoAppend (⟨[5, 6], 1⟩ : GoSlice Nat) [7, 8]).map GoSlice.elems
            = some (GoSlice.elems (⟨[5, 6], 1⟩ : GoSlice Nat) ++ [7, 8]) := by
  constructor
  · rfl
  · intro h
    rw [show GoAppend (⟨[5, 6], 1⟩ : GoSlice Nat) [7, 8] = none from rfl] at h
    simp at h

/-- Claim C8 (amended): whenever the slice is exactly full or the appended
values fit within the capacity — in particular for every append of at most
one value onto a well-formed slice — `GoAppend` returns a slice whose
elements are exactly the original elements followed by the new values, the
same observable result as the standard growable-sequence append; in the
remaining case (len < cap < len + count) it fails with a bounds panic
instead of returning. -/
theorem claim_C8_thm {α : Type} [Inhabited α] (s : GoSlice α) (vs : List α)
    (h : s.len = s.arr.length ∨ s.len + vs.length ≤ s.arr.length) :
    (GoAppend s vs).map GoSlice.elems = some (s.elems ++ vs) := by
  obtain ⟨t, h1, h2, h3⟩ := goAppend_sound s vs h
  rw [h1, Option.map_some', h2]

/-- Witness for the amended claim C8: appending one value to a full slice. -/
theorem claim_C8_thm_witness :
    ((2 : Nat) = 2 ∨ (2 : Nat) + 1 ≤ 2)
      ∧ (GoAppend (⟨[5, 6], 2⟩ : GoSlice Nat) [7]).map GoSlice.elems
          = some (GoSlice.elems (⟨[5, 6], 2⟩ : GoSlice Nat) ++ [7]) :=
  ⟨Or.inl rfl, claim_C8_thm (⟨[5, 6], 2⟩ : GoSlice Nat) [7] (Or.inl rfl)⟩

/-! ## Claim C10: IdentifyBestHit and the unique bin -/

/-- The loop of `IdentifyBestHit` never panics on well-formed bin maps and
returns the last sgenome, the seeded transition count, and an updated
well-formed all-reads map. -/
lemma bestHitLoop_spec {α : Type} [Inhabited α] (read : α) :
    ∀ (t : List SearchFields) (prev : String) (cnt : Nat) (og : String → GoSlice α),
      (∀ g, (og g).len ≤ (og g).arr.length) →
      ∃ og2, bestHitLoop read t prev cnt og
          = some (lastSg t prev, cnt + transCount prev t, og2)
        ∧ ∀ g, (og2 g).len ≤ (og2 g).arr.length := by
  intro t
  induction t with
  | nil =>
    intro prev cnt og hwf
    refine ⟨og, ?_, hwf⟩
    simp [bestHitLoop, lastSg, transCount]
  | cons h t ih =>
    intro prev cnt og hwf
    by_cases hs : h.sgenome = prev
    · have hcond : ¬ h.sgenome ≠ prev := by simp [hs]
      obtain ⟨og2, h1, h2⟩ := ih h.sgenome cnt og hwf
      refine ⟨og2, ?_, h2⟩
      simp only [bestHitLoop, lastSg, transCount]
      rw [if_neg hcond, if_neg hcond, Nat.zero_add]
      exact h1
    · have hcond : h.sgenome ≠ prev := hs
      have hdis : (og h.sgenome).len = (og h.sgenome).arr.length
          ∨ (og h.sgenome).len + ([read] : List α).length ≤ (og h.sgenome).arr.length := by
        have hwfg := hwf h.sgenome
        by_cases he : (og h.sgenome).len = (og h.sgenome).arr.length
        · exact Or.inl he
        · right
          simp only [List.length_singleton]
          omega
      obtain ⟨s2, he, helems, hwf2⟩ := goAppend_sound (og h.sgenome) [read] hdis
      have hwf3 : ∀ g, ((Function.update og h.sgenome s2) g).len
          ≤ ((Function.update og h.sgenome s2) g).arr.length := by
        intro g
        by_cases hg : g = h.sgenome
        · subst hg
          rw [Function.update_same]
          exact hwf2
        · rw [Function.update_noteq hg]
          exact hwf g
      obtain ⟨og2, h1, h2⟩ := ih h.sgenome (cnt + 1) (Function.update og h.sgenome s2) hwf3
      refine ⟨og2, ?_, h2⟩
      simp only [bestHitLoop, lastSg, transCount]
      rw [if_pos hcond, if_pos hcond, he]
      rw [show cnt + (1 + transCount h.sgenome t) = cnt + 1 + transCount h.sgenome t from by omega]
      exact h1

/-- The transition count is zero exactly when every sgenome equals the seed. -/
lemma transCount_eq_zero : ∀ (t : List SearchFields) (prev : String),
    transCount prev t = 0 ↔ ∀ x ∈ t, x.sgenome = prev := by
  intro t
  induction t with
  | nil =>
    intro prev
    simp [transCount]
  | cons h t ih =>
    intro prev
    simp only [transCount, List.mem_cons]
    by_cases hs : h.sgenome = prev
    · rw [if_neg (by simp [hs]), Nat.zero_add]
      constructor
      · intro hz x hx
        rcases hx with hx | hx
        · rw [hx]
          exact hs
        · rw [(ih h.sgenome).mp hz x hx, hs]
      · intro hall
        apply (ih h.sgenome).mpr
        intro x hx
        rw [hall x (Or.inr hx), hs]
    · rw [if_pos hs]
      constructor
      · intro hz
        omega
      · intro hall
        exact absurd (hall h (Or.inl rfl)) hs
/-- The last sgenome of a run that never changes is the seed. -/
lemma lastSg_const : ∀ (t : List SearchFields) (p : String),
    (∀ x ∈ t, x.sgenome = p) → lastSg t p = p := by
  intro t
  induction t with
  | nil =>
    intro p _
    rfl
  | cons h t ih =>
    intro p hall
    have hh : h.sgenome = p := hall h (List.mem_cons_self h t)
    simp only [lastSg]
    rw [hh]
    exact ih p (fun x hx => hall x (List.mem_cons_of_mem h hx))

/-- Counterexample for claim C10: a single hit whose sgenome is the empty
string. Every hit trivially shares the same sgenome and id_best is true, yet
`IdentifyBestHit` appends nothing to the unique bin: the transition counter
starts from `previous = ""`, so the first hit is not counted and
`sgenomes_out` ends at 0, not 1. Both maps come back unchanged. -/
theorem claim_C10_counterexample :
    IdentifyBestHit [SearchFields.mk emptyStr] emptyBins emptyBins (7 : Nat) true
        = some (emptyBins, emptyBins)
      ∧ (emptyBins emptyStr).elems = ([] : List Nat) :=
  ⟨rfl, rfl⟩

/-- Claim C10 (amended): for every non-empty hit list whose sgenome values
are all non-empty, `IdentifyBestHit` with id_best true succeeds and appends
the read to the unique-bin map exactly when every hit carries the same
sgenome; in that case it appends exactly once, to that genome's unique bin,
and leaves every other unique bin unchanged; otherwise the unique-bin map is
returned untouched. (Hits with empty-string sgenome defeat the iff, because
the transition counter is seeded with `previous = ""`.) -/
theorem claim_C10_thm {α : Type} [Inhabited α] (h0 : SearchFields) (rest : List SearchFields)
    (og ogu : String → GoSlice α) (read : α)
    (hnz : ∀ x ∈ h0 :: rest, x.sgenome ≠ emptyStr)
    (hog : ∀ g, (og g).len ≤ (og g).arr.length)
    (hogu : ∀ g, (ogu g).len ≤ (ogu g).arr.length) :
    ∃ r, IdentifyBestHit (h0 :: rest) og ogu read true = some r
      ∧ ((∀ x ∈ h0 :: rest, x.sgenome = h0.sgenome) →
          (r.2 h0.sgenome).elems = (ogu h0.sgenome).elems ++ [read]
            ∧ ∀ g, g ≠ h0.sgenome → r.2 g = ogu g)
      ∧ ((¬ ∀ x ∈ h0 :: rest, x.sgenome = h0.sgenome) → r.2 = ogu) := by
  obtain ⟨og2, hloop, hwf2⟩ := bestHitLoop_spec read (h0 :: rest) emptyStr 0 og hog
  have hcnt : transCount emptyStr (h0 :: rest) = 1 + transCount h0.sgenome rest := by
    simp only [transCount]
    rw [if_pos (hnz h0 (List.mem_cons_self h0 rest))]
  by_cases huni : ∀ x ∈ h0 :: rest, x.sgenome = h0.sgenome
  · have hz : transCount h0.sgenome rest = 0 := by
      apply (transCount_eq_zero rest h0.sgenome).mpr
      intro x hx
      exact huni x (List.mem_cons_of_mem h0 hx)
    have hlast : lastSg (h0 :: rest) emptyStr = h0.sgenome := by
      simp only [lastSg]
      exact lastSg_const rest h0.sgenome (fun x hx => huni x (List.mem_cons_of_mem h0 hx))
    have hdis : (ogu h0.sgenome).len = (ogu h0.sgenome).arr.length
        ∨ (ogu h0.sgenome).len + ([read] : List α).length ≤ (ogu h0.sgenome).arr.length := by
      have hwfg := hogu h0.sgenome
      by_cases he : (ogu h0.sgenome).len = (ogu h0.sgenome).arr.length
      · exact Or.inl he
      · right
        simp only [List.length_singleton]
        omega
    obtain ⟨u2, hu, huelems, hwfu⟩ := goAppend_sound (ogu h0.sgenome) [read] hdis
    refine ⟨(og2, Function.update ogu h0.sgenome u2), ?_, ?_, ?_⟩
    · simp only [IdentifyBestHit, hloop]
      rw [hlast, hcnt, hz]
      norm_num
      rw [hu]
    · intro _
      constructor
      · show (Function.update ogu h0.sgenome u2 h0.sgenome).elems = (ogu h0.sgenome).elems ++ [read]
        rw [Function.update_same]
        exact huelems
      · intro g hg
        show Function.update ogu h0.sgenome u2 g = ogu g
        exact Function.update_noteq hg u2 ogu
    · intro hcon
      exact absurd huni hcon
  · have hz : transCount h0.sgenome rest ≠ 0 := by
      intro h0z
      apply huni
      intro x hx
      rcases List.mem_cons.mp hx with hx | hx
      · rw [hx]
      · exact (transCount_eq_zero rest h0.sgenome).mp h0z x hx
    refine ⟨(og2, ogu), ?_, ?_, ?_⟩
    · simp only [IdentifyBestHit, hloop]
      rw [hcnt]
      rw [if_neg (by rintro ⟨hc1, -⟩; exact hz (by omega))]
    · intro h
      exact absurd h huni
    · intro _
      rfl

/-- Witness for the amended claim C10: one hit on genome g1 with all-empty
bins; the call succeeds. -/
theorem claim_C10_thm_witness :
    (SearchFields.mk gA).sgenome ≠ emptyStr
      ∧ (IdentifyBestHit [SearchFields.mk gA] emptyBins emptyBins (7 : Nat) true).isSome = true := by
  refine ⟨by decide, ?_⟩
  obtain ⟨r, h1, -, -⟩ :=
    claim_C10_thm (SearchFields.mk gA) [] emptyBins emptyBins 7
      (by
        intro x hx
        rw [List.mem_singleton.mp hx]
        decide)
      (fun g => Nat.le.refl)
      (fun g => Nat.le.refl)
  rw [h1]
  rfl
